import Mathlib

/-!
Shallow embedding of the `fileater` file organizer (Go) and proofs about it.

The embedding follows the newest variant of each source file:
`src/organizer.go` (the `Organizer` struct with a `Categories` map, the
collision resolver with an early existence check, and `Run` adding a fixed
catch-all entry "mix" to `TargetPaths`) and `src/main.go` (flag handling and
configuration resolution).  Filesystem interaction is modelled explicitly:
the set of existing paths is a `List String`, `os.Stat` existence checks are
list membership, `os.Rename` removes the source path and adds the destination
path, and `os.MkdirAll` adds the directory path.  `filepath.WalkDir` is
modelled as the pre-order visit sequence of a directory tree (with the
`SkipDir` pruning the source performs, which depends only on the entry's
path), folded through the walk callback; cancellation of the `context` is
modelled by the invocation index at which `ctx.Done()` becomes ready.
-/

/-- Character-level lower casing as Go `strings.ToLower` acts on ASCII
letters (the only characters appearing in extensions in this program):
`A`..`Z` map to `a`..`z`, all other characters are unchanged. -/
def toLowerChar (c : Char) : Char :=
  if 'A' ≤ c ∧ c ≤ 'Z' then Char.ofNat (c.toNat + 32) else c

/-- Go `strings.ToLower` on a string, character by character. -/
def goToLower (s : String) : String :=
  ⟨s.data.map toLowerChar⟩

/-- Helper for `filepathExt`: scan the reversed character list of a path.
Stop with the empty extension at a path separator, and at the first dot seen
(the last dot of the final path element) return the dot followed by the
characters accumulated after it. -/
def extFromRev : List Char → List Char → List Char
  | [], _ => []
  | c :: rest, acc =>
    if c = '/' then []
    else if c = '.' then '.' :: acc
    else extFromRev rest (c :: acc)

/-- Go `filepath.Ext`: the suffix of the final slash-separated element of
the path beginning at its final dot, or `""` when that element has no dot. -/
def filepathExt (p : String) : String :=
  ⟨extFromRev p.data.reverse []⟩

/-- Go `filepath.Join` of a directory and one further component, for the
shapes this program produces (a cleaned directory path joined with a
non-empty entry name): concatenation with a single separator. -/
def goJoin (dir elemName : String) : String :=
  dir ++ "/" ++ elemName

/-- Go `filepath.Base` for the slash-normalized paths this program produces
(no trailing separator): the characters after the last `/`, or the whole
string when it has no `/`. -/
def goBase (p : String) : String :=
  ⟨(p.data.reverse.takeWhile (· ≠ '/')).reverse⟩

/-- Go `filepath.Dir` for the slash-normalized paths this program produces:
the characters before the last `/`; `"."` when there is no `/`, `"/"` when
the last `/` is the first character. -/
def goDir (p : String) : String :=
  match p.data.reverse.dropWhile (· ≠ '/') with
  | [] => "."
  | _ :: r => if r = [] then "/" else ⟨r.reverse⟩

/-- Go `strings.TrimSuffix`: drop the suffix when present, otherwise return
the string unchanged. -/
def trimSuffix (s suffix : String) : String :=
  if suffix.data.isSuffixOf s.data then
    ⟨s.data.take (s.data.length - suffix.data.length)⟩
  else s

/-- Decimal digit character, used to render `fmt.Sprintf("%d", n)`. -/
def digitChar (d : Nat) : Char := Char.ofNat (48 + d)

/-- Helper for `natRepr`: peel decimal digits from the low end onto an
accumulator.  The first argument is structural fuel; each step divides the
number by ten, so fuel equal to the number itself always suffices (see
`digitsVal_natReprAux`). -/
def natReprAux : Nat → Nat → List Char → List Char
  | 0, _, acc => acc
  | fuel + 1, n, acc =>
    if n = 0 then acc else natReprAux fuel (n / 10) (digitChar (n % 10) :: acc)

/-- Decimal rendering of a natural number, as Go `fmt.Sprintf("%d", n)`
produces for the (non-negative) collision counters of this program. -/
def natRepr (n : Nat) : String :=
  if n = 0 then "0" else ⟨natReprAux n n []⟩

/-- The organizer (`src/organizer.go`, newest variant).  `Categories` is the
category-name to extension-set map; it is modelled as an association list
whose order stands for one iteration order of the Go map.  The `Recursive`
field is the third constructor argument `src/main.go` passes to
`NewOrganizer`; see `nonRecursiveSkip` for how it is modelled. -/
structure Organizer where
  RootPath : String
  DryRun : Bool
  Recursive : Bool
  Categories : List (String × List String)
deriving DecidableEq

/-- Method `Organizer.categorizeFile` (`src/organizer.go`): lower-case the
path's extension, return the first category of the iteration whose extension
set contains it, and fall back to the fixed catch-all name `"mix"`. -/
def Organizer.categorizeFile (o : Organizer) (path : String) : String :=
  let ext := goToLower (filepathExt path)
  match o.Categories.find? (fun c => decide (ext ∈ c.2)) with
  | some c => c.1
  | none => "mix"

/-- Candidate path formed inside the collision loop of
`Organizer.resolveCollision`: `filepath.Join(dir, fmt.Sprintf("%s_%d%s",
name, counter, ext))`. -/
def collisionCand (dir nm ext : String) (counter : Nat) : String :=
  goJoin dir (nm ++ "_" ++ natRepr counter ++ ext)

/-- The unbounded `for` loop of `Organizer.resolveCollision`, with explicit
fuel.  The Go loop terminates exactly when some candidate is free; over a
finite filesystem `fs` a fuel of `fs.length + 1` provably suffices (see
`collisionLoop_finds_least` and `collisionCand_free_exists`), so the
fuel-out branch is never taken with the fuel `resolveCollision` supplies. -/
def collisionLoop (fs : List String) (dir nm ext : String) :
    Nat → Nat → String
  | counter, 0 => collisionCand dir nm ext counter
  | counter, fuel + 1 =>
    let newPath := collisionCand dir nm ext counter
    if newPath ∈ fs then collisionLoop fs dir nm ext (counter + 1) fuel
    else newPath

/-- Method `Organizer.resolveCollision` (`src/organizer.go`, newest variant):
if the desired path does not exist (`os.Stat` reports not-exist) return it
unchanged; otherwise split it into directory, name and extension and probe
`<name>_1<ext>`, `<name>_2<ext>`, ... until a free path is found.  The
existing filesystem is the explicit argument `fs`. -/
def resolveCollision (fs : List String) (path : String) : String :=
  if path ∈ fs then
    let dir := goDir path
    let base := goBase path
    let ext := filepathExt base
    let nm := trimSuffix base ext
    collisionLoop fs dir nm ext 1 (fs.length + 1)
  else path

/-- Result of `os.Rename(src, dst)` on the modelled filesystem when the
rename succeeds: the source path disappears and the destination appears. -/
def goRename (fs : List String) (src dst : String) : List String :=
  dst :: fs.erase src

/-- Outcome of one `Organizer.processFile` call: the filesystem afterwards,
whether the call returned a (rename) error, and the performed move as a
source/destination pair when a rename happened. -/
structure ProcessOut where
  fs : List String
  errored : Bool
  move : Option (String × String)
deriving DecidableEq

/-- Method `Organizer.processFile` (`src/organizer.go`, newest variant):
categorize, compute `destPath = Join(Join(RootPath, category), d.Name())`,
do nothing when the source already is the destination, resolve collisions
only outside dry-run, log instead of moving in dry-run, and otherwise
rename.  Whether the OS-level rename succeeds is the oracle `renameOk`
(permissions, cross-device links and similar are outside the model). -/
def Organizer.processFile (o : Organizer) (renameOk : String → String → Bool)
    (fs : List String) (path entryName : String) : ProcessOut :=
  let category := o.categorizeFile path
  let destDir := goJoin o.RootPath category
  let destPath := goJoin destDir entryName
  if path = destPath then ⟨fs, false, none⟩
  else
    let finalDest := if o.DryRun then destPath else resolveCollision fs destPath
    if o.DryRun then ⟨fs, false, none⟩
    else if renameOk path finalDest then ⟨goRename fs path finalDest, false, some (path, finalDest)⟩
    else ⟨fs, true, none⟩

/-- The target-path set `Organizer.Run` builds before the walk: one path per
configured category, plus the fixed catch-all path `Join(RootPath, "mix")`
that is always added (`src/organizer.go`, newest variant). -/
def Organizer.targetPaths (o : Organizer) : List String :=
  o.Categories.map (fun c => goJoin o.RootPath c.1) ++ [goJoin o.RootPath "mix"]

/-- The directory-creation phase of `Organizer.Run`: outside dry-run,
`os.MkdirAll(Join(RootPath, catName))` for every configured category — and
for no other path; in particular the catch-all path is only added to
`TargetPaths`, never created.  In dry-run the creations are only logged. -/
def Organizer.mkdirPhase (o : Organizer) (fs : List String) : List String :=
  if o.DryRun then fs
  else o.Categories.foldl (fun acc c => goJoin o.RootPath c.1 :: acc) fs

mutual
/-- A node of the walked directory tree: a regular file or a directory with
its child entries listed in the order `filepath.WalkDir` visits them. -/
inductive FSNode where
  | file (entryName : String)
  | dir (entryName : String) (children : FSForest)
/-- A finite sequence of sibling tree nodes (a specialized list, so that the
tree traversal below is structurally recursive). -/
inductive FSForest where
  | nil
  | cons (hd : FSNode) (tl : FSForest)
end

/-- Entry name of a tree node (`d.Name()`). -/
def FSNode.entryName : FSNode → String
  | .file n => n
  | .dir n _ => n

/-- The sibling sequence as an ordinary list of nodes. -/
def FSForest.toList : FSForest → List FSNode
  | .nil => []
  | .cons hd tl => hd :: tl.toList

/-- Modelled from the spec: the handling of the `Recursive` flag inside
`Organizer.Run` is absent from `src` — `src/main.go` passes a third
`recursive` argument to `NewOrganizer` and `TestRun_NonRecursiveByDefault`
exercises the behavior, but no `organizer.go` variant under `src` has the
field — so it is modelled from the spec's words: when recursion is
disabled, the walk does not descend into any non-root directory. -/
def nonRecursiveSkip (o : Organizer) (path : String) : Bool :=
  !o.Recursive && path != o.RootPath

/-- Whether the walk callback answers `filepath.SkipDir` for a directory
entry: the source skips target output folders other than the root
(`src/organizer.go`), and `nonRecursiveSkip` adds the spec-modelled
non-recursive pruning. -/
def Organizer.dirSkipped (o : Organizer) (path : String) : Bool :=
  (path != o.RootPath && decide (path ∈ o.targetPaths)) || nonRecursiveSkip o path

/-- One item of the walk's visit sequence: a directory callback or a file
callback (with the file's full path and its entry name). -/
inductive VisitItem where
  | dirV (path : String)
  | fileV (path entryName : String)
deriving DecidableEq

mutual
/-- Visit sequence of `filepath.WalkDir` rooted at `path` for node `n`:
the node's own callback first; for a directory whose callback does not
answer `SkipDir`, the children's sequences follow in order.  The pruning
decision `Organizer.dirSkipped` depends only on the entry's path, so the
sequence is determined by the tree. -/
def visitItems (o : Organizer) (path : String) : FSNode → List VisitItem
  | .file n => [.fileV path n]
  | .dir _ children =>
    .dirV path :: (if o.dirSkipped path then [] else visitChildren o path children)

/-- Visit sequences of a directory's children, concatenated in order. -/
def visitChildren (o : Organizer) (dirPath : String) : FSForest → List VisitItem
  | .nil => []
  | .cons c rest =>
    visitItems o (goJoin dirPath c.entryName) c ++ visitChildren o dirPath rest
end

/-- Walk bookkeeping: the filesystem, the `processedCount` and `errorCount`
counters of `Organizer.Run`, the number of callback invocations so far, the
number of file callbacks so far, and the performed moves in order. -/
structure WalkState where
  fs : List String
  processed : Nat
  errors : Nat
  calls : Nat
  fileCalls : Nat
  moves : List (String × String)
deriving DecidableEq

/-- External world of one run: the rename oracle and the callback-invocation
index from which `ctx.Done()` is ready (`none` when the run is never
cancelled). -/
structure WalkEnv where
  renameOk : String → String → Bool
  cancelAt : Option Nat

/-- Whether the `select` at the top of the walk callback sees a cancelled
context at invocation index `k`. -/
def isCancelledAt (cancelAt : Option Nat) (k : Nat) : Bool :=
  match cancelAt with
  | none => false
  | some n => decide (n ≤ k)

/-- One walk callback invocation (`src/organizer.go`, the closure passed to
`filepath.WalkDir`): an aborted walk stays aborted; otherwise check the
context first and abort with `ctx.Err()` when cancelled; a directory
callback only steers pruning (already reflected in the visit sequence); a
file callback runs `processFile`, counting an error or a processed file and
continuing the walk either way. -/
def walkStep (o : Organizer) (env : WalkEnv) (acc : WalkState × Bool)
    (v : VisitItem) : WalkState × Bool :=
  match acc with
  | (st, true) => (st, true)
  | (st, false) =>
    if isCancelledAt env.cancelAt st.calls then (st, true)
    else
      let st := { st with calls := st.calls + 1 }
      match v with
      | .dirV _ => (st, false)
      | .fileV path n =>
        let r := o.processFile env.renameOk st.fs path n
        ({ st with
            fs := r.fs
            fileCalls := st.fileCalls + 1
            errors := st.errors + (if r.errored then 1 else 0)
            processed := st.processed + (if r.errored then 0 else 1)
            moves := st.moves ++ r.move.toList }, false)

/-- Distinguishable outcomes of `Organizer.Run`: `nil`, `context.Canceled`,
or some other error value (for example a failed `MkdirAll`; no such error
arises in this model, but the Go error type keeps them distinct). -/
inductive RunResult where
  | ok
  | canceled
  | fail (msg : String)
deriving DecidableEq

/-- Everything `Organizer.Run` leaves behind: the filesystem, the two
counters, the callback and file-callback counts, the moves, and the
returned error value. -/
structure RunOut where
  fs : List String
  processed : Nat
  errors : Nat
  calls : Nat
  fileCalls : Nat
  moves : List (String × String)
  result : RunResult
deriving DecidableEq

/-- Method `Organizer.Run` (`src/organizer.go`, newest variant): create the
target directories (only logging them in dry-run), then walk the tree —
`rootChildren` are the root directory's entries in visit order, and the
root's own callback is the first invocation — threading the callback
through the visit sequence; the walk's error becomes the run's result.
`RootPath` is taken as already absolute (the `filepath.Abs` resolution is
the identity on the absolute paths this model uses). -/
def Organizer.Run (o : Organizer) (env : WalkEnv) (rootChildren : FSForest)
    (fs0 : List String) : RunOut :=
  let fs1 := o.mkdirPhase fs0
  let st0 : WalkState := ⟨fs1, 0, 0, 0, 0, []⟩
  let items := visitItems o o.RootPath (.dir "" rootChildren)
  let stepped := items.foldl (walkStep o env) (st0, false)
  ⟨stepped.1.fs, stepped.1.processed, stepped.1.errors, stepped.1.calls,
    stepped.1.fileCalls, stepped.1.moves,
    if stepped.2 then .canceled else .ok⟩

/-- The built-in categories `Organizer.UseDefaultCategories` installs when
no configuration file is given (`src/organizer.go`). -/
def defaultCategories : List (String × List String) :=
  [("video", [".mp4", ".mkv", ".avi"]),
   ("audio", [".mp3", ".wav", ".flac"]),
   ("docs", [".pdf", ".docx", ".txt", ".md"])]

/-- Method `Organizer.UseDefaultCategories` (`src/organizer.go`). -/
def Organizer.UseDefaultCategories (o : Organizer) : Organizer :=
  { o with Categories := defaultCategories }

/-- The categories `TestCategorizeFile` populates (`src/organizer_test.go`),
used as concrete inputs for witnesses. -/
def sampleCategories : List (String × List String) :=
  [("video", [".mp4", ".mkv", ".avi"]),
   ("audio", [".mp3", ".wav"]),
   ("docs", [".pdf", ".txt"]),
   ("images", [".jpg", ".png"])]

/-- How `main` resolves the configuration (`src/main.go`). -/
inductive ConfigOutcome where
  | loaded (cats : List (String × List String))
  | useDefaults
  | fatal
deriving DecidableEq

/-- The value of the `config` flag as `flag.Lookup("config").Value.String()`
reports it: the user's explicit argument when one was given, otherwise the
default `"config.json"`. -/
def effectiveConfigPath (userConfig : Option String) : String :=
  userConfig.getD "config.json"

/-- The configuration decision of `main` (`src/main.go`): when the file at
the effective config path exists, load it (fatally exiting when parsing
fails — `parsed = none`); when it does not exist, exit fatally if the
flag's value differs from the literal `"config.json"`, and otherwise fall
back to the built-in defaults.  `existsOnDisk` models the `os.Stat` check
and `parsed` the result of `LoadConfig`. -/
def mainConfigDecision (userConfig : Option String) (existsOnDisk : Bool)
    (parsed : Option (List (String × List String))) : ConfigOutcome :=
  if existsOnDisk then
    match parsed with
    | some cats => .loaded cats
    | none => .fatal
  else if effectiveConfigPath userConfig ≠ "config.json" then .fatal
  else .useDefaults

/-- Numeric value of a decimal digit string; inverts `natRepr`. -/
def digitsVal (l : List Char) : Nat :=
  l.foldl (fun a c => 10 * a + (c.toNat - 48)) 0

theorem natReprAux_acc : ∀ fuel n acc, natReprAux fuel n acc = natReprAux fuel n [] ++ acc := by
  intro fuel
  induction fuel with
  | zero => intro n acc; simp [natReprAux]
  | succ fuel ih =>
    intro n acc
    by_cases h : n = 0
    · simp [natReprAux, h]
    · rw [natReprAux, natReprAux, if_neg h, if_neg h,
        ih (n / 10) (digitChar (n % 10) :: acc), ih (n / 10) (digitChar (n % 10) :: [])]
      simp

theorem digitsVal_append (xs : List Char) (c : Char) :
    digitsVal (xs ++ [c]) = 10 * digitsVal xs + (c.toNat - 48) := by
  simp [digitsVal, List.foldl_append]

theorem toNat_digitChar (d : Nat) (h : d < 10) : (digitChar d).toNat = 48 + d := by
  interval_cases d <;> decide

theorem digitsVal_natReprAux : ∀ fuel n, n ≤ fuel → digitsVal (natReprAux fuel n []) = n := by
  intro fuel
  induction fuel with
  | zero =>
    intro n h
    have : n = 0 := by omega
    subst this
    simp [natReprAux, digitsVal]
  | succ fuel ih =>
    intro n h
    by_cases h0 : n = 0
    · simp [natReprAux, h0, digitsVal]
    · have h10 : n / 10 ≤ fuel := by omega
      rw [natReprAux, if_neg h0, natReprAux_acc, digitsVal_append, ih _ h10,
        toNat_digitChar _ (by omega)]
      omega

theorem digitsVal_natRepr (n : Nat) : digitsVal (natRepr n).data = n := by
  by_cases h : n = 0
  · subst h; decide
  · simpa [natRepr, h] using digitsVal_natReprAux n n (Nat.le_refl n)

theorem natRepr_inj {m n : Nat} (h : natRepr m = natRepr n) : m = n := by
  have := congrArg (fun s => digitsVal s.data) h
  simpa [digitsVal_natRepr] using this

theorem collisionCand_inj (dir nm ext : String) {j k : Nat}
    (h : collisionCand dir nm ext j = collisionCand dir nm ext k) : j = k := by
  have hd : dir.data ++ ("/".data ++ (nm.data ++ ("_".data ++ ((natRepr j).data ++ ext.data))))
      = dir.data ++ ("/".data ++ (nm.data ++ ("_".data ++ ((natRepr k).data ++ ext.data)))) := by
    have := congrArg String.data h
    simpa [collisionCand, goJoin, String.data_append, List.append_assoc] using this
  have h1 := List.append_cancel_left hd
  have h2 := List.append_cancel_left h1
  have h3 := List.append_cancel_left h2
  have h4 := List.append_cancel_left h3
  have h5 := List.append_cancel_right h4
  have := congrArg digitsVal h5
  simpa [digitsVal_natRepr] using this

theorem collisionLoop_finds_least (fs : List String) (dir nm ext : String) :
    ∀ fuel counter,
      (∃ j, counter ≤ j ∧ j < counter + fuel ∧ collisionCand dir nm ext j ∉ fs) →
      ∃ k, counter ≤ k ∧
        collisionLoop fs dir nm ext counter fuel = collisionCand dir nm ext k ∧
        collisionCand dir nm ext k ∉ fs ∧
        ∀ j, counter ≤ j → j < k → collisionCand dir nm ext j ∈ fs := by
  intro fuel
  induction fuel with
  | zero =>
    rintro counter ⟨j, hj1, hj2, -⟩
    omega
  | succ fuel ih =>
    rintro counter ⟨j, hj1, hj2, hj3⟩
    by_cases hc : collisionCand dir nm ext counter ∈ fs
    · have hjne : j ≠ counter := by
        intro he
        exact hj3 (he ▸ hc)
      obtain ⟨k, hk1, hk2, hk3, hk4⟩ :=
        ih (counter + 1) ⟨j, by omega, by omega, hj3⟩
      refine ⟨k, by omega, ?_, hk3, ?_⟩
      · rw [collisionLoop]
        simpa [hc] using hk2
      · intro i hi1 hi2
        rcases Nat.lt_or_ge i (counter + 1) with hlt | hge
        · have : i = counter := by omega
          exact this ▸ hc
        · exact hk4 i hge hi2
    · exact ⟨counter, Nat.le_refl _, by rw [collisionLoop]; simp [hc], hc,
        fun j h1 h2 => absurd h2 (by omega)⟩

theorem collisionCand_free_exists (fs : List String) (dir nm ext : String) :
    ∃ j, 1 ≤ j ∧ j < 1 + (fs.length + 1) ∧ collisionCand dir nm ext j ∉ fs := by
  by_contra hall
  push_neg at hall
  have hsub : (Finset.Icc 1 (fs.length + 1)).image (collisionCand dir nm ext)
      ⊆ fs.toFinset := by
    intro x hx
    rw [Finset.mem_image] at hx
    obtain ⟨j, hj, rfl⟩ := hx
    rw [Finset.mem_Icc] at hj
    rw [List.mem_toFinset]
    exact hall j hj.1 (by omega)
  have hcard1 : ((Finset.Icc 1 (fs.length + 1)).image (collisionCand dir nm ext)).card
      = fs.length + 1 := by
    rw [Finset.card_image_of_injOn (fun a _ b _ hab => collisionCand_inj dir nm ext hab)]
    simp [Nat.card_Icc]
  have hle := Finset.card_le_card hsub
  have h2 := List.toFinset_card_le fs
  omega

/-- C3: for every desired destination path, `resolveCollision` returns the
path unchanged when no file exists at it; otherwise it returns the sibling
`<name>_<counter><ext>` in the same directory for the least counter `≥ 1`
whose path does not exist at resolution time. -/
theorem resolveCollision_spec (fs : List String) (path : String) :
    (path ∉ fs → resolveCollision fs path = path) ∧
    (path ∈ fs → ∃ k, 1 ≤ k ∧
      resolveCollision fs path =
        collisionCand (goDir path)
          (trimSuffix (goBase path) (filepathExt (goBase path)))
          (filepathExt (goBase path)) k ∧
      collisionCand (goDir path)
          (trimSuffix (goBase path) (filepathExt (goBase path)))
          (filepathExt (goBase path)) k ∉ fs ∧
      ∀ j, 1 ≤ j → j < k →
        collisionCand (goDir path)
          (trimSuffix (goBase path) (filepathExt (goBase path)))
          (filepathExt (goBase path)) j ∈ fs) := by
  constructor
  · intro h
    simp [resolveCollision, h]
  · intro h
    rw [resolveCollision, if_pos h]
    exact collisionLoop_finds_least fs _ _ _ (fs.length + 1) 1
      (collisionCand_free_exists fs _ _ _)

/-- Witness for `resolveCollision_spec`: on the one-file filesystem holding
exactly the desired path, the collision branch applies and produces the
`_1` sibling, while a fresh path comes back unchanged. -/
theorem resolveCollision_spec_witness :
    (("/a/t.txt" : String) ∈ (["/a/t.txt"] : List String)) ∧
    (∃ k, 1 ≤ k ∧
      resolveCollision ["/a/t.txt"] "/a/t.txt" =
        collisionCand (goDir "/a/t.txt")
          (trimSuffix (goBase "/a/t.txt") (filepathExt (goBase "/a/t.txt")))
          (filepathExt (goBase "/a/t.txt")) k ∧
      collisionCand (goDir "/a/t.txt")
          (trimSuffix (goBase "/a/t.txt") (filepathExt (goBase "/a/t.txt")))
          (filepathExt (goBase "/a/t.txt")) k ∉ (["/a/t.txt"] : List String) ∧
      ∀ j, 1 ≤ j → j < k →
        collisionCand (goDir "/a/t.txt")
          (trimSuffix (goBase "/a/t.txt") (filepathExt (goBase "/a/t.txt")))
          (filepathExt (goBase "/a/t.txt")) j ∈ (["/a/t.txt"] : List String)) ∧
    resolveCollision ["/a/t.txt"] "/a/t.txt" = "/a/t_1.txt" ∧
    resolveCollision ["/a/t.txt"] "/a/b.txt" = "/a/b.txt" :=
  ⟨by decide,
   (resolveCollision_spec ["/a/t.txt"] "/a/t.txt").2 (by decide),
   by decide,
   (resolveCollision_spec ["/a/t.txt"] "/a/b.txt").1 (by decide)⟩

theorem find?_category_unique {l : List (String × List String)} {x c : String}
    {es : List String} (hmem : (c, es) ∈ l) (hx : x ∈ es)
    (huniq : ∀ e ∈ l, x ∈ e.2 → e.1 = c) :
    ∃ e, l.find? (fun e => decide (x ∈ e.2)) = some e ∧ e.1 = c := by
  have hsome : (l.find? (fun e => decide (x ∈ e.2))).isSome :=
    List.find?_isSome.mpr ⟨(c, es), hmem, by simpa using hx⟩
  obtain ⟨e, he⟩ := Option.isSome_iff_exists.mp hsome
  exact ⟨e, he, huniq e (List.mem_of_find?_eq_some he) (by simpa using List.find?_some he)⟩

/-- C4 (amended): when the lower-cased extension of the path belongs to some
category's set and every category set containing it belongs to the name `c`,
`categorizeFile` returns `c`; when it belongs to no category's set — for an
extension-less path the looked-up extension is the empty string — it
returns the catch-all `"mix"`; and the result depends on the file name only
through its lower-cased extension, hence is the same for any letter case. -/
theorem categorizeFile_spec (o : Organizer) (p : String) :
    (∀ c es, (c, es) ∈ o.Categories → goToLower (filepathExt p) ∈ es →
      (∀ e ∈ o.Categories, goToLower (filepathExt p) ∈ e.2 → e.1 = c) →
      o.categorizeFile p = c) ∧
    ((∀ e ∈ o.Categories, goToLower (filepathExt p) ∉ e.2) →
      o.categorizeFile p = "mix") ∧
    (∀ q, goToLower (filepathExt p) = goToLower (filepathExt q) →
      o.categorizeFile p = o.categorizeFile q) := by
  refine ⟨?_, ?_, ?_⟩
  · intro c es hmem hx huniq
    obtain ⟨e, he, hec⟩ := find?_category_unique hmem hx huniq
    simp [Organizer.categorizeFile, he, hec]
  · intro hnone
    have hfind : o.Categories.find?
        (fun e => decide (goToLower (filepathExt p) ∈ e.2)) = none :=
      List.find?_eq_none.mpr (fun e he => by simpa using hnone e he)
    simp [Organizer.categorizeFile, hfind]
  · intro q h
    simp [Organizer.categorizeFile, h]

/-- C4, counterexample to the claim as frozen: with a configured category
whose extension set contains the empty string — `LoadConfig` accepts the
JSON `{"weird": [""]}` unchanged — a path that has no extension at all is
categorized into that category, not into the catch-all `"mix"`. -/
theorem categorizeFile_noext_cx :
    filepathExt "README" = "" ∧
    (⟨"/r", false, false, [("weird", [""])]⟩ : Organizer).categorizeFile "README" = "weird" ∧
    ("weird" : String) ≠ "mix" := by decide

/-- Witness for `categorizeFile_spec`, on the categories populated by
`TestCategorizeFile`: the mixed-case name lands in "video", the unmapped
extension in "mix", and upper/lower-case spellings agree. -/
theorem categorizeFile_spec_witness :
    (⟨".", true, false, sampleCategories⟩ : Organizer).categorizeFile "CLIP.mKv" = "video" ∧
    (⟨".", true, false, sampleCategories⟩ : Organizer).categorizeFile "archive.zip" = "mix" ∧
    (⟨".", true, false, sampleCategories⟩ : Organizer).categorizeFile "CLIP.mKv" =
      (⟨".", true, false, sampleCategories⟩ : Organizer).categorizeFile "clip.mkv" :=
  ⟨(categorizeFile_spec _ "CLIP.mKv").1 "video" [".mp4", ".mkv", ".avi"]
      (by decide) (by decide) (by decide),
   (categorizeFile_spec _ "archive.zip").2.1 (by decide),
   (categorizeFile_spec _ "CLIP.mKv").2.2 "clip.mkv" (by decide)⟩

/-- C9: over category maps in which an extension belongs to at most one
category name, `categorizeFile` is deterministic — its value is the same
for any iteration order of the map, modelled as any permutation of the
association list. -/
theorem categorizeFile_order_independent (o o₂ : Organizer) (p : String)
    (hperm : o.Categories.Perm o₂.Categories)
    (huniq : ∀ x : String, ∀ e ∈ o.Categories, ∀ e₂ ∈ o.Categories,
      x ∈ e.2 → x ∈ e₂.2 → e.1 = e₂.1) :
    o.categorizeFile p = o₂.categorizeFile p := by
  cases h : o.Categories.find?
      (fun e => decide (goToLower (filepathExt p) ∈ e.2)) with
  | none =>
    have hnone := List.find?_eq_none.mp h
    have h2 : o₂.Categories.find?
        (fun e => decide (goToLower (filepathExt p) ∈ e.2)) = none :=
      List.find?_eq_none.mpr (fun e he => hnone e (hperm.mem_iff.mpr he))
    simp [Organizer.categorizeFile, h, h2]
  | some e =>
    have he_mem : e ∈ o.Categories := List.mem_of_find?_eq_some h
    have he_x : goToLower (filepathExt p) ∈ e.2 := by simpa using List.find?_some h
    have hsome2 : (o₂.Categories.find?
        (fun e => decide (goToLower (filepathExt p) ∈ e.2))).isSome :=
      List.find?_isSome.mpr ⟨e, hperm.mem_iff.mp he_mem, by simpa using he_x⟩
    obtain ⟨e₂, he2⟩ := Option.isSome_iff_exists.mp hsome2
    have he2_mem : e₂ ∈ o.Categories := hperm.mem_iff.mpr (List.mem_of_find?_eq_some he2)
    have he2_x : goToLower (filepathExt p) ∈ e₂.2 := by simpa using List.find?_some he2
    have hnames : e.1 = e₂.1 := huniq _ e he_mem e₂ he2_mem he_x he2_x
    simp [Organizer.categorizeFile, h, he2, hnames]

/-- Witness for `categorizeFile_order_independent`: two opposite iteration
orders of a two-category map agree on a concrete file. -/
theorem categorizeFile_order_independent_witness :
    (⟨"/r", false, false, [("a", [".x"]), ("b", [".y"])]⟩ : Organizer).categorizeFile "f.x" =
      (⟨"/r", false, false, [("b", [".y"]), ("a", [".x"])]⟩ : Organizer).categorizeFile "f.x" :=
  categorizeFile_order_independent _ _ "f.x" (by decide)
    (by
      intro x e he e₂ he₂ hx hx₂
      fin_cases he <;> fin_cases he₂ <;> simp_all)

theorem foldl_walkStep_absorb (o : Organizer) (env : WalkEnv) :
    ∀ (items : List VisitItem) (st : WalkState),
      items.foldl (walkStep o env) (st, true) = (st, true) := by
  intro items
  induction items with
  | nil => intro st; rfl
  | cons v rest ih => intro st; rw [List.foldl_cons]; exact ih st

theorem walkStep_cancel (o : Organizer) (env : WalkEnv) (st : WalkState) (v : VisitItem)
    (hc : isCancelledAt env.cancelAt st.calls = true) :
    walkStep o env (st, false) v = (st, true) := by
  simp [walkStep, hc]

theorem walkStep_dirV (o : Organizer) (env : WalkEnv) (st : WalkState) (p : String)
    (hc : isCancelledAt env.cancelAt st.calls = false) :
    walkStep o env (st, false) (.dirV p) = ({ st with calls := st.calls + 1 }, false) := by
  simp [walkStep, hc]

theorem walkStep_fileV (o : Organizer) (env : WalkEnv) (st : WalkState) (p n : String)
    (hc : isCancelledAt env.cancelAt st.calls = false) :
    walkStep o env (st, false) (.fileV p n) =
      ({ st with
          calls := st.calls + 1
          fs := (o.processFile env.renameOk st.fs p n).fs
          fileCalls := st.fileCalls + 1
          errors := st.errors + (if (o.processFile env.renameOk st.fs p n).errored then 1 else 0)
          processed := st.processed + (if (o.processFile env.renameOk st.fs p n).errored then 0 else 1)
          moves := st.moves ++ (o.processFile env.renameOk st.fs p n).move.toList }, false) := by
  simp [walkStep, hc]

theorem processFile_dry (o : Organizer) (rok : String → String → Bool)
    (fs : List String) (path n : String) (h : o.DryRun = true) :
    o.processFile rok fs path n = ⟨fs, false, none⟩ := by
  simp [Organizer.processFile, h]

theorem foldl_walkStep_dry (o : Organizer) (env : WalkEnv) (h : o.DryRun = true) :
    ∀ (items : List VisitItem) (st : WalkState) (ab : Bool),
      (items.foldl (walkStep o env) (st, ab)).1.fs = st.fs ∧
      (items.foldl (walkStep o env) (st, ab)).1.moves = st.moves := by
  intro items
  induction items with
  | nil => intro st ab; exact ⟨rfl, rfl⟩
  | cons v rest ih =>
    intro st ab
    cases ab with
    | true => rw [foldl_walkStep_absorb]; exact ⟨rfl, rfl⟩
    | false =>
      rw [List.foldl_cons]
      by_cases hc : isCancelledAt env.cancelAt st.calls
      · rw [walkStep_cancel o env st v hc, foldl_walkStep_absorb]; exact ⟨rfl, rfl⟩
      · have hcf : isCancelledAt env.cancelAt st.calls = false := by
          simpa using hc
        cases v with
        | dirV p =>
          rw [walkStep_dirV o env st p hcf]
          exact ih _ false
        | fileV p n =>
          rw [walkStep_fileV o env st p n hcf,
            processFile_dry o env.renameOk st.fs p n h]
          obtain ⟨h1, h2⟩ := ih ({ st with
            calls := st.calls + 1
            fs := (⟨st.fs, false, none⟩ : ProcessOut).fs
            fileCalls := st.fileCalls + 1
            errors := st.errors + (if (⟨st.fs, false, none⟩ : ProcessOut).errored then 1 else 0)
            processed := st.processed + (if (⟨st.fs, false, none⟩ : ProcessOut).errored then 0 else 1)
            moves := st.moves ++ (⟨st.fs, false, none⟩ : ProcessOut).move.toList }) false
          refine ⟨by simpa using h1, by simpa using h2⟩

/-- C5: in a simulate-only (dry) run, `Run` performs no filesystem
mutation: the filesystem afterwards equals the filesystem before — no
target directory is created — and no rename is performed (the move list is
empty; `processFile` skips the collision-resolution loop and the rename by
definition in this mode). -/
theorem Run_dryRun_no_mutation (o : Organizer) (env : WalkEnv)
    (rootChildren : FSForest) (fs0 : List String) (h : o.DryRun = true) :
    (o.Run env rootChildren fs0).fs = fs0 ∧
    (o.Run env rootChildren fs0).moves = [] := by
  have hmk : o.mkdirPhase fs0 = fs0 := by simp [Organizer.mkdirPhase, h]
  obtain ⟨h1, h2⟩ := foldl_walkStep_dry o env h
    (visitItems o o.RootPath (.dir "" rootChildren))
    ⟨o.mkdirPhase fs0, 0, 0, 0, 0, []⟩ false
  constructor
  · rw [Organizer.Run]
    simpa [hmk] using h1
  · rw [Organizer.Run]
    simpa using h2

/-- Witness for `Run_dryRun_no_mutation`: a concrete dry run over a root
with one file and one populated subdirectory changes nothing. -/
theorem Run_dryRun_no_mutation_witness :
    ((⟨"/r", true, true, defaultCategories⟩ : Organizer).Run ⟨fun _ _ => true, none⟩
      (.cons (.file "a.txt") (.cons (.dir "sub" (.cons (.file "b.txt") .nil)) .nil))
      ["/r", "/r/a.txt", "/r/sub", "/r/sub/b.txt"]).fs
        = ["/r", "/r/a.txt", "/r/sub", "/r/sub/b.txt"] ∧
    ((⟨"/r", true, true, defaultCategories⟩ : Organizer).Run ⟨fun _ _ => true, none⟩
      (.cons (.file "a.txt") (.cons (.dir "sub" (.cons (.file "b.txt") .nil)) .nil))
      ["/r", "/r/a.txt", "/r/sub", "/r/sub/b.txt"]).moves = [] :=
  Run_dryRun_no_mutation _ _ _ _ rfl

theorem foldl_walkStep_no_cancel (o : Organizer) (env : WalkEnv)
    (h : env.cancelAt = none) :
    ∀ (items : List VisitItem) (st : WalkState),
      (items.foldl (walkStep o env) (st, false)).2 = false ∧
      (items.foldl (walkStep o env) (st, false)).1.processed +
          (items.foldl (walkStep o env) (st, false)).1.errors + st.fileCalls =
        st.processed + st.errors +
          (items.foldl (walkStep o env) (st, false)).1.fileCalls := by
  intro items
  induction items with
  | nil =>
    intro st
    refine ⟨rfl, ?_⟩
    simp only [List.foldl_nil]
  | cons v rest ih =>
    intro st
    have hc : isCancelledAt env.cancelAt st.calls = false := by
      simp [isCancelledAt, h]
    rw [List.foldl_cons]
    cases v with
    | dirV p =>
      rw [walkStep_dirV o env st p hc]
      obtain ⟨ih1, ih2⟩ := ih { st with calls := st.calls + 1 }
      exact ⟨ih1, by simpa using ih2⟩
    | fileV p n =>
      rw [walkStep_fileV o env st p n hc]
      obtain ⟨ih1, ih2⟩ := ih ({ st with
        calls := st.calls + 1
        fs := (o.processFile env.renameOk st.fs p n).fs
        fileCalls := st.fileCalls + 1
        errors := st.errors + (if (o.processFile env.renameOk st.fs p n).errored then 1 else 0)
        processed := st.processed + (if (o.processFile env.renameOk st.fs p n).errored then 0 else 1)
        moves := st.moves ++ (o.processFile env.renameOk st.fs p n).move.toList })
      refine ⟨ih1, ?_⟩
      simp only at ih2 ⊢
      by_cases he : (o.processFile env.renameOk st.fs p n).errored
      · simp [he] at ih2 ⊢; omega
      · simp [he] at ih2 ⊢; omega

/-- C8: without cancellation, `Run` returns nil (`ok`) no matter which
renames fail — a per-file move failure is only counted, never aborts the
remaining walk and never becomes `Run`'s error — and every visited file is
counted exactly once, either as processed or as an error. -/
theorem Run_move_failure_swallowed (o : Organizer) (env : WalkEnv)
    (rootChildren : FSForest) (fs0 : List String) (h : env.cancelAt = none) :
    (o.Run env rootChildren fs0).result = .ok ∧
    (o.Run env rootChildren fs0).processed + (o.Run env rootChildren fs0).errors =
      (o.Run env rootChildren fs0).fileCalls := by
  obtain ⟨h1, h2⟩ := foldl_walkStep_no_cancel o env h
    (visitItems o o.RootPath (.dir "" rootChildren))
    ⟨o.mkdirPhase fs0, 0, 0, 0, 0, []⟩
  constructor
  · rw [Organizer.Run]
    simp [h1]
  · rw [Organizer.Run]
    simpa using h2

/-- Witness for `Run_move_failure_swallowed`: the first root file's rename
fails, the walk still processes and moves the second file, the error is
counted, and the run ends with nil. -/
theorem Run_move_failure_swallowed_witness :
    ((⟨"/r", false, true, defaultCategories⟩ : Organizer).Run
        ⟨fun s _ => s != "/r/fail.txt", none⟩
        (.cons (.file "fail.txt") (.cons (.file "ok.txt") .nil))
        ["/r", "/r/fail.txt", "/r/ok.txt"]).result = .ok ∧
    ((⟨"/r", false, true, defaultCategories⟩ : Organizer).Run
        ⟨fun s _ => s != "/r/fail.txt", none⟩
        (.cons (.file "fail.txt") (.cons (.file "ok.txt") .nil))
        ["/r", "/r/fail.txt", "/r/ok.txt"]).processed +
      ((⟨"/r", false, true, defaultCategories⟩ : Organizer).Run
        ⟨fun s _ => s != "/r/fail.txt", none⟩
        (.cons (.file "fail.txt") (.cons (.file "ok.txt") .nil))
        ["/r", "/r/fail.txt", "/r/ok.txt"]).errors =
      ((⟨"/r", false, true, defaultCategories⟩ : Organizer).Run
        ⟨fun s _ => s != "/r/fail.txt", none⟩
        (.cons (.file "fail.txt") (.cons (.file "ok.txt") .nil))
        ["/r", "/r/fail.txt", "/r/ok.txt"]).fileCalls ∧
    ((⟨"/r", false, true, defaultCategories⟩ : Organizer).Run
        ⟨fun s _ => s != "/r/fail.txt", none⟩
        (.cons (.file "fail.txt") (.cons (.file "ok.txt") .nil))
        ["/r", "/r/fail.txt", "/r/ok.txt"]).errors = 1 ∧
    ((⟨"/r", false, true, defaultCategories⟩ : Organizer).Run
        ⟨fun s _ => s != "/r/fail.txt", none⟩
        (.cons (.file "fail.txt") (.cons (.file "ok.txt") .nil))
        ["/r", "/r/fail.txt", "/r/ok.txt"]).moves
      = [("/r/ok.txt", "/r/docs/ok.txt")] ∧
    ("/r/fail.txt" : String) ∈
      ((⟨"/r", false, true, defaultCategories⟩ : Organizer).Run
        ⟨fun s _ => s != "/r/fail.txt", none⟩
        (.cons (.file "fail.txt") (.cons (.file "ok.txt") .nil))
        ["/r", "/r/fail.txt", "/r/ok.txt"]).fs :=
  ⟨(Run_move_failure_swallowed _ _ _ _ rfl).1,
   (Run_move_failure_swallowed _ _ _ _ rfl).2,
   by decide, by decide, by decide⟩

theorem foldl_walkStep_cancel_bound (o : Organizer) (env : WalkEnv) (n : Nat)
    (h : env.cancelAt = some n) :
    ∀ (items : List VisitItem) (st : WalkState), st.calls ≤ n →
      (items.foldl (walkStep o env) (st, false)).1.calls ≤ n ∧
      ((items.foldl (walkStep o env) (st, false)).2 = true ↔
        n < st.calls + items.length) := by
  intro items
  induction items with
  | nil =>
    intro st hst
    refine ⟨hst, ?_⟩
    simp only [List.foldl_nil, List.length_nil]
    constructor
    · intro hfalse
      exact absurd hfalse (by simp)
    · intro hlt
      omega
  | cons v rest ih =>
    intro st hst
    rw [List.foldl_cons]
    by_cases hc : n ≤ st.calls
    · have hcc : isCancelledAt env.cancelAt st.calls = true := by
        simp [isCancelledAt, h, hc]
      rw [walkStep_cancel o env st v hcc, foldl_walkStep_absorb]
      refine ⟨hst, ⟨fun _ => ?_, fun _ => rfl⟩⟩
      simp only [List.length_cons]
      omega
    · have hcc : isCancelledAt env.cancelAt st.calls = false := by
        simp [isCancelledAt, h]
        omega
      cases v with
      | dirV p =>
        rw [walkStep_dirV o env st p hcc]
        obtain ⟨ih1, ih2⟩ := ih { st with calls := st.calls + 1 } (by simp; omega)
        refine ⟨ih1, ?_⟩
        rw [ih2]
        show n < st.calls + 1 + rest.length ↔ n < st.calls + (VisitItem.dirV p :: rest).length
        simp only [List.length_cons]
        omega
      | fileV p n' =>
        rw [walkStep_fileV o env st p n' hcc]
        obtain ⟨ih1, ih2⟩ := ih ({ st with
          calls := st.calls + 1
          fs := (o.processFile env.renameOk st.fs p n').fs
          fileCalls := st.fileCalls + 1
          errors := st.errors + (if (o.processFile env.renameOk st.fs p n').errored then 1 else 0)
          processed := st.processed + (if (o.processFile env.renameOk st.fs p n').errored then 0 else 1)
          moves := st.moves ++ (o.processFile env.renameOk st.fs p n').move.toList })
          (by simp; omega)
        refine ⟨ih1, ?_⟩
        rw [ih2]
        show n < st.calls + 1 + rest.length ↔ n < st.calls + (VisitItem.fileV p n' :: rest).length
        simp only [List.length_cons]
        omega

theorem foldl_walkStep_moves_le (o : Organizer) (env : WalkEnv) :
    ∀ (items : List VisitItem) (st : WalkState) (ab : Bool),
      (items.foldl (walkStep o env) (st, ab)).1.moves.length + st.calls ≤
        st.moves.length + (items.foldl (walkStep o env) (st, ab)).1.calls := by
  intro items
  induction items with
  | nil =>
    intro st ab
    simp only [List.foldl_nil]
    omega
  | cons v rest ih =>
    intro st ab
    cases ab with
    | true =>
      rw [foldl_walkStep_absorb]
    | false =>
      rw [List.foldl_cons]
      by_cases hc : isCancelledAt env.cancelAt st.calls
      · rw [walkStep_cancel o env st v hc, foldl_walkStep_absorb]
      · have hcf : isCancelledAt env.cancelAt st.calls = false := by simpa using hc
        cases v with
        | dirV p =>
          rw [walkStep_dirV o env st p hcf]
          have hrec := ih { st with calls := st.calls + 1 } false
          simp only at hrec ⊢
          omega
        | fileV p n' =>
          rw [walkStep_fileV o env st p n' hcf]
          have hrec := ih ({ st with
            calls := st.calls + 1
            fs := (o.processFile env.renameOk st.fs p n').fs
            fileCalls := st.fileCalls + 1
            errors := st.errors + (if (o.processFile env.renameOk st.fs p n').errored then 1 else 0)
            processed := st.processed + (if (o.processFile env.renameOk st.fs p n').errored then 0 else 1)
            moves := st.moves ++ (o.processFile env.renameOk st.fs p n').move.toList }) false
          simp only [List.length_append] at hrec
          have hmv : (o.processFile env.renameOk st.fs p n').move.toList.length ≤ 1 := by
            cases (o.processFile env.renameOk st.fs p n').move <;> simp
          omega

theorem Run_result_cases (o : Organizer) (env : WalkEnv) (rootChildren : FSForest)
    (fs0 : List String) :
    (o.Run env rootChildren fs0).result = .canceled ∨
      (o.Run env rootChildren fs0).result = .ok := by
  rw [Organizer.Run]
  cases hb : ((visitItems o o.RootPath (.dir "" rootChildren)).foldl (walkStep o env)
      (⟨o.mkdirPhase fs0, 0, 0, 0, 0, []⟩, false)).2 <;> simp [hb]

theorem Run_unfold (o : Organizer) (env : WalkEnv) (rootChildren : FSForest)
    (fs0 : List String) :
    o.Run env rootChildren fs0 =
      ⟨((visitItems o o.RootPath (.dir "" rootChildren)).foldl (walkStep o env)
          (⟨o.mkdirPhase fs0, 0, 0, 0, 0, []⟩, false)).1.fs,
        ((visitItems o o.RootPath (.dir "" rootChildren)).foldl (walkStep o env)
          (⟨o.mkdirPhase fs0, 0, 0, 0, 0, []⟩, false)).1.processed,
        ((visitItems o o.RootPath (.dir "" rootChildren)).foldl (walkStep o env)
          (⟨o.mkdirPhase fs0, 0, 0, 0, 0, []⟩, false)).1.errors,
        ((visitItems o o.RootPath (.dir "" rootChildren)).foldl (walkStep o env)
          (⟨o.mkdirPhase fs0, 0, 0, 0, 0, []⟩, false)).1.calls,
        ((visitItems o o.RootPath (.dir "" rootChildren)).foldl (walkStep o env)
          (⟨o.mkdirPhase fs0, 0, 0, 0, 0, []⟩, false)).1.fileCalls,
        ((visitItems o o.RootPath (.dir "" rootChildren)).foldl (walkStep o env)
          (⟨o.mkdirPhase fs0, 0, 0, 0, 0, []⟩, false)).1.moves,
        if ((visitItems o o.RootPath (.dir "" rootChildren)).foldl (walkStep o env)
          (⟨o.mkdirPhase fs0, 0, 0, 0, 0, []⟩, false)).2 then .canceled else .ok⟩ := rfl

/-- C7: the walk callback checks the cancellation signal before handling
each entry — with cancellation ready from invocation index `n` on, at most
`n` callbacks ever run and at most `n` moves are performed, and a
cancellation before the first callback (index 0, the root directory's own
visit) leaves everything untouched after the directory-creation phase; the
walk returns the cancellation outcome exactly when the cancellation index
falls inside the visit sequence, and `Run`'s result is then `canceled`,
never any other error value, so the caller can distinguish it from both
`ok` (nil) and filesystem errors. -/
theorem Run_cancellation (o : Organizer) (env : WalkEnv) (rootChildren : FSForest)
    (fs0 : List String) (n : Nat) (h : env.cancelAt = some n) :
    (o.Run env rootChildren fs0).calls ≤ n ∧
    (o.Run env rootChildren fs0).moves.length ≤ n ∧
    ((o.Run env rootChildren fs0).result = .canceled ↔
      n < (visitItems o o.RootPath (.dir "" rootChildren)).length) ∧
    (∀ e, (o.Run env rootChildren fs0).result ≠ .fail e) ∧
    (n = 0 → o.Run env rootChildren fs0 =
      ⟨o.mkdirPhase fs0, 0, 0, 0, 0, [], .canceled⟩) := by
  have hb := foldl_walkStep_cancel_bound o env n h
    (visitItems o o.RootPath (.dir "" rootChildren))
    ⟨o.mkdirPhase fs0, 0, 0, 0, 0, []⟩ (Nat.zero_le n)
  have hm := foldl_walkStep_moves_le o env
    (visitItems o o.RootPath (.dir "" rootChildren))
    ⟨o.mkdirPhase fs0, 0, 0, 0, 0, []⟩ false
  refine ⟨hb.1, ?_, ?_, ?_, ?_⟩
  · have hm' : (o.Run env rootChildren fs0).moves.length + 0 ≤
        0 + (o.Run env rootChildren fs0).calls := hm
    have hc' : (o.Run env rootChildren fs0).calls ≤ n := hb.1
    omega
  · have hb2 := hb.2
    rw [Run_unfold]
    cases hbool : ((visitItems o o.RootPath (.dir "" rootChildren)).foldl (walkStep o env)
        (⟨o.mkdirPhase fs0, 0, 0, 0, 0, []⟩, false)).2 with
    | false =>
      rw [hbool] at hb2
      simp only [Bool.false_eq_true, false_iff] at hb2
      simp only [not_lt] at hb2
      simp
      omega
    | true =>
      rw [hbool] at hb2
      simp only [true_iff] at hb2
      simp
      omega
  · intro e
    rw [Run_unfold]
    cases hbool : ((visitItems o o.RootPath (.dir "" rootChildren)).foldl (walkStep o env)
        (⟨o.mkdirPhase fs0, 0, 0, 0, 0, []⟩, false)).2 <;> simp [hbool]
  · intro h0
    subst h0
    have hcc : isCancelledAt env.cancelAt 0 = true := by simp [isCancelledAt, h]
    have hitems2 : visitItems o o.RootPath (.dir "" rootChildren)
        = .dirV o.RootPath ::
          (if o.dirSkipped o.RootPath = true then []
           else visitChildren o o.RootPath rootChildren) := rfl
    have hfold : (visitItems o o.RootPath (.dir "" rootChildren)).foldl (walkStep o env)
        (⟨o.mkdirPhase fs0, 0, 0, 0, 0, []⟩, false)
        = (⟨o.mkdirPhase fs0, 0, 0, 0, 0, []⟩, true) := by
      rw [hitems2, List.foldl_cons,
        walkStep_cancel o env ⟨o.mkdirPhase fs0, 0, 0, 0, 0, []⟩ _ hcc,
        foldl_walkStep_absorb]
    rw [Run_unfold, hfold]
    rfl

/-- Witness for `Run_cancellation`: a run whose context is cancelled before
the first callback does nothing and reports the cancellation outcome. -/
theorem Run_cancellation_witness :
    ((⟨"/r", false, true, defaultCategories⟩ : Organizer).Run ⟨fun _ _ => true, some 0⟩
        (.cons (.file "a.txt") .nil) ["/r", "/r/a.txt"]) =
      ⟨(⟨"/r", false, true, defaultCategories⟩ : Organizer).mkdirPhase ["/r", "/r/a.txt"],
        0, 0, 0, 0, [], .canceled⟩ ∧
    ((⟨"/r", false, true, defaultCategories⟩ : Organizer).Run ⟨fun _ _ => true, some 0⟩
        (.cons (.file "a.txt") .nil) ["/r", "/r/a.txt"]).calls ≤ 0 :=
  ⟨(Run_cancellation _ _ _ _ 0 rfl).2.2.2.2 rfl,
   (Run_cancellation _ _ _ _ 0 rfl).1⟩

theorem goJoin_ne_left (a b : String) : goJoin a b ≠ a := by
  intro hcontra
  have hlen := congrArg String.length hcontra
  rw [goJoin, String.length_append, String.length_append] at hlen
  have hone : ("/" : String).length = 1 := rfl
  omega

theorem goJoin_right_inj {a x y : String} (h : goJoin a x = goJoin a y) : x = y := by
  have hd := congrArg String.data h
  simp only [goJoin, String.data_append, List.append_assoc] at hd
  exact String.ext (List.append_cancel_left (List.append_cancel_left hd))

theorem dirSkipped_root (o : Organizer) : o.dirSkipped o.RootPath = false := by
  simp [Organizer.dirSkipped, nonRecursiveSkip]

theorem processFile_move_src (o : Organizer) (rok : String → String → Bool)
    (fs : List String) (path n s d : String)
    (h : (o.processFile rok fs path n).move = some (s, d)) : s = path := by
  simp only [Organizer.processFile] at h
  split at h
  · simp at h
  · split at h
    · simp at h
    · split at h
      · simp only [Option.some.injEq, Prod.mk.injEq] at h
        exact h.1.symm
      · simp at h

theorem foldl_walkStep_moves_src (o : Organizer) (env : WalkEnv) :
    ∀ (items : List VisitItem) (st : WalkState) (ab : Bool) (s d : String),
      (s, d) ∈ (items.foldl (walkStep o env) (st, ab)).1.moves →
      (s, d) ∈ st.moves ∨ ∃ p n, VisitItem.fileV p n ∈ items ∧ s = p := by
  intro items
  induction items with
  | nil => intro st ab s d hm; exact .inl hm
  | cons v rest ih =>
    intro st ab s d hm
    cases ab with
    | true =>
      rw [foldl_walkStep_absorb] at hm
      exact .inl hm
    | false =>
      rw [List.foldl_cons] at hm
      by_cases hc : isCancelledAt env.cancelAt st.calls
      · rw [walkStep_cancel o env st v hc, foldl_walkStep_absorb] at hm
        exact .inl hm
      · have hcf : isCancelledAt env.cancelAt st.calls = false := by simpa using hc
        cases v with
        | dirV p =>
          rw [walkStep_dirV o env st p hcf] at hm
          rcases ih _ false s d hm with h1 | ⟨p', n', hmem, hs⟩
          · exact .inl h1
          · exact .inr ⟨p', n', List.mem_cons_of_mem _ hmem, hs⟩
        | fileV p n =>
          rw [walkStep_fileV o env st p n hcf] at hm
          rcases ih _ false s d hm with h1 | ⟨p', n', hmem, hs⟩
          · rcases List.mem_append.mp h1 with h2 | h2
            · exact .inl h2
            · refine .inr ⟨p, n, List.mem_cons_self _ _, ?_⟩
              cases hmv : (o.processFile env.renameOk st.fs p n).move with
              | none =>
                rw [hmv] at h2
                simp at h2
              | some pr =>
                rw [hmv] at h2
                simp at h2
                exact processFile_move_src o env.renameOk st.fs p n s d
                  (by rw [hmv, h2])
          · exact .inr ⟨p', n', List.mem_cons_of_mem _ hmem, hs⟩

theorem visitChildren_nonrec (o : Organizer) (hrec : o.Recursive = false) :
    ∀ (children : FSForest) (p n : String),
      VisitItem.fileV p n ∈ visitChildren o o.RootPath children →
      ∃ nm, FSNode.file nm ∈ children.toList ∧ p = goJoin o.RootPath nm
  | .nil => by
    intro p n hm
    simp [visitChildren] at hm
  | .cons c rest => by
    intro p n hm
    rw [visitChildren] at hm
    rcases List.mem_append.mp hm with h1 | h2
    · cases c with
      | file nm =>
        rw [visitItems] at h1
        simp only [FSNode.entryName, List.mem_singleton, VisitItem.fileV.injEq] at h1
        exact ⟨nm, by simp [FSForest.toList], h1.1⟩
      | dir nm ch =>
        have hskip : o.dirSkipped (goJoin o.RootPath nm) = true := by
          simp only [Organizer.dirSkipped, nonRecursiveSkip, hrec, Bool.not_false,
            Bool.true_and, Bool.or_eq_true, bne_iff_ne]
          exact Or.inr (goJoin_ne_left o.RootPath nm)
        rw [visitItems] at h1
        simp [FSNode.entryName, hskip] at h1
    · obtain ⟨nm, hmem, hp⟩ := visitChildren_nonrec o hrec rest p n h2
      exact ⟨nm, by simp [FSForest.toList]; exact Or.inr hmem, hp⟩

/-- C2 (`Recursive` handling modelled from the spec, see `nonRecursiveSkip`):
in non-recursive mode every move source of a run is a file directly inside
the root directory, so a file located inside any subdirectory of the root —
target output folder or otherwise — is never moved or renamed; with
separator-free entry names, no path of the form `root/<t>` where `t`
contains a separator is ever a move source. -/
theorem Run_nonRecursive_subdirs_untouched (o : Organizer) (env : WalkEnv)
    (rootChildren : FSForest) (fs0 : List String) (hrec : o.Recursive = false) :
    (∀ s d, (s, d) ∈ (o.Run env rootChildren fs0).moves →
      ∃ nm, FSNode.file nm ∈ rootChildren.toList ∧ s = goJoin o.RootPath nm) ∧
    ((∀ c ∈ rootChildren.toList, ('/' : Char) ∉ (FSNode.entryName c).data) →
      ∀ s d, (s, d) ∈ (o.Run env rootChildren fs0).moves →
      ∀ t, ('/' : Char) ∈ t.data → s ≠ goJoin o.RootPath t) := by
  have hmain : ∀ s d, (s, d) ∈ (o.Run env rootChildren fs0).moves →
      ∃ nm, FSNode.file nm ∈ rootChildren.toList ∧ s = goJoin o.RootPath nm := by
    intro s d hm
    rw [Run_unfold] at hm
    have hsrc := foldl_walkStep_moves_src o env _ _ false s d hm
    rcases hsrc with h1 | ⟨p', n', hmem, hs⟩
    · simp at h1
    · rw [visitItems, dirSkipped_root] at hmem
      simp only [Bool.false_eq_true, if_false, List.mem_cons] at hmem
      rcases hmem with h2 | h2
      · exact absurd h2 (by simp)
      · obtain ⟨nm, hnm, hp⟩ := visitChildren_nonrec o hrec rootChildren p' n' h2
        exact ⟨nm, hnm, hs.trans hp⟩
  refine ⟨hmain, ?_⟩
  intro hnames s d hm t ht hcontra
  obtain ⟨nm, hnm, hp⟩ := hmain s d hm
  have : nm = t := goJoin_right_inj (hp ▸ hcontra)
  subst this
  exact absurd ht (by simpa [FSNode.entryName] using hnames _ hnm)

/-- Witness for `Run_nonRecursive_subdirs_untouched`: in a concrete
non-recursive run over a root with one file and one populated
subdirectory, the single performed move has a root-level file as source. -/
theorem Run_nonRecursive_subdirs_untouched_witness :
    ∃ nm, FSNode.file nm ∈
        (FSForest.cons (.file "a.txt")
          (.cons (.dir "sub" (.cons (.file "b.txt") .nil)) .nil)).toList ∧
      "/r/a.txt" = goJoin "/r" nm :=
  (Run_nonRecursive_subdirs_untouched (⟨"/r", false, false, defaultCategories⟩ : Organizer)
      ⟨fun _ _ => true, none⟩
      (.cons (.file "a.txt") (.cons (.dir "sub" (.cons (.file "b.txt") .nil)) .nil))
      ["/r", "/r/a.txt", "/r/sub", "/r/sub/b.txt"] rfl).1
    "/r/a.txt" "/r/docs/a.txt" (by decide)

theorem goJoin_ne_empty (a b : String) : goJoin a b ≠ "" := by
  intro h
  have hlen := congrArg String.length h
  rw [goJoin, String.length_append, String.length_append] at hlen
  have hone : ("/" : String).length = 1 := rfl
  simp at hlen
  omega

theorem extFromRev_no_slash : ∀ (l acc : List Char), (∀ c ∈ acc, c ≠ '/') →
    ∀ c ∈ extFromRev l acc, c ≠ '/'
  | [], acc => by
    intro hacc c hc
    simp [extFromRev] at hc
  | x :: rest, acc => by
    intro hacc c hc
    rw [extFromRev] at hc
    by_cases hx : x = '/'
    · simp [hx] at hc
    · by_cases hdot : x = '.'
      · simp only [if_neg hx, if_pos hdot, List.mem_cons] at hc
        rcases hc with rfl | hc
        · intro he
          simp at he
        · exact hacc c hc
      · simp only [if_neg hx, if_neg hdot] at hc
        exact extFromRev_no_slash rest (x :: acc)
          (by
            intro c' hc'
            rcases List.mem_cons.mp hc' with rfl | h'
            · exact hx
            · exact hacc c' h') c hc

theorem filepathExt_no_slash (p : String) : ∀ c ∈ (filepathExt p).data, c ≠ '/' := by
  intro c hc
  exact extFromRev_no_slash p.data.reverse [] (by simp) c hc

theorem goBase_no_slash (p : String) : ∀ c ∈ (goBase p).data, c ≠ '/' := by
  intro c hc
  rw [goBase] at hc
  rw [List.mem_reverse] at hc
  have := List.mem_takeWhile_imp hc
  simpa using this

theorem trimSuffix_no_slash (s suffix : String) (hs : ∀ c ∈ s.data, c ≠ '/') :
    ∀ c ∈ (trimSuffix s suffix).data, c ≠ '/' := by
  intro c hc
  rw [trimSuffix] at hc
  split at hc
  · exact hs c (List.take_subset _ _ hc)
  · exact hs c hc

theorem digitChar_ne_slash (d : Nat) (h : d < 10) : digitChar d ≠ '/' := by
  intro he
  have := congrArg Char.toNat he
  rw [toNat_digitChar d h] at this
  have hs : ('/' : Char).toNat = 47 := rfl
  omega

theorem natReprAux_no_slash : ∀ (fuel n : Nat) (acc : List Char),
    (∀ c ∈ acc, c ≠ '/') → ∀ c ∈ natReprAux fuel n acc, c ≠ '/' := by
  intro fuel
  induction fuel with
  | zero => intro n acc hacc c hc; exact hacc c hc
  | succ fuel ih =>
    intro n acc hacc c hc
    rw [natReprAux] at hc
    by_cases h0 : n = 0
    · rw [if_pos h0] at hc
      exact hacc c hc
    · rw [if_neg h0] at hc
      refine ih (n / 10) _ ?_ c hc
      intro c' hc'
      rcases List.mem_cons.mp hc' with rfl | h'
      · exact digitChar_ne_slash _ (Nat.mod_lt _ (by norm_num))
      · exact hacc c' h'

theorem natRepr_no_slash (k : Nat) : ∀ c ∈ (natRepr k).data, c ≠ '/' := by
  intro c hc
  rw [natRepr] at hc
  split at hc
  · simp at hc
    subst hc
    decide
  · exact natReprAux_no_slash k k [] (by simp) c hc

theorem dropWhile_append_no_slash {l rest : List Char} (hall : ∀ c ∈ l, c ≠ '/') :
    (l ++ rest).dropWhile (· ≠ '/') = rest.dropWhile (· ≠ '/') := by
  induction l with
  | nil => rfl
  | cons x xs ih =>
    rw [List.cons_append, List.dropWhile_cons]
    rw [if_pos (by simpa using hall x (List.mem_cons_self _ _))]
    exact ih (fun c hc => hall c (List.mem_cons_of_mem _ hc))

theorem goDir_goJoin (a b : String) (ha : a ≠ "") (hb : ∀ c ∈ b.data, c ≠ '/') :
    goDir (goJoin a b) = a := by
  have hone : ("/" : String).data = ['/'] := rfl
  have hdata : (goJoin a b).data.reverse = b.data.reverse ++ '/' :: a.data.reverse := by
    simp [goJoin, String.data_append, hone]
  have hdrop : (goJoin a b).data.reverse.dropWhile (· ≠ '/') = '/' :: a.data.reverse := by
    rw [hdata, dropWhile_append_no_slash (by
      intro c hc
      exact hb c (List.mem_reverse.mp hc))]
    rw [List.dropWhile_cons]
    simp
  have hne : a.data.reverse ≠ [] := by
    intro h
    apply ha
    apply String.ext
    simpa using h
  show (match (goJoin a b).data.reverse.dropWhile (· ≠ '/') with
    | [] => "."
    | _ :: r => if r = [] then "/" else ⟨r.reverse⟩) = a
  rw [hdrop]
  simp only [if_neg hne]
  rw [List.reverse_reverse]

theorem collisionLoop_shape (fs : List String) (dir nm ext : String) :
    ∀ fuel counter, ∃ k, collisionLoop fs dir nm ext counter fuel = collisionCand dir nm ext k := by
  intro fuel
  induction fuel with
  | zero => intro counter; exact ⟨counter, rfl⟩
  | succ fuel ih =>
    intro counter
    rw [collisionLoop]
    by_cases hc : collisionCand dir nm ext counter ∈ fs
    · simpa [hc] using ih (counter + 1)
    · exact ⟨counter, by simp [hc]⟩

theorem goDir_resolveCollision (fs : List String) (p : String) (hp : goDir p ≠ "") :
    goDir (resolveCollision fs p) = goDir p := by
  rw [resolveCollision]
  split
  · obtain ⟨k, hk⟩ := collisionLoop_shape fs (goDir p)
      (trimSuffix (goBase p) (filepathExt (goBase p))) (filepathExt (goBase p))
      (fs.length + 1) 1
    show goDir (collisionLoop fs (goDir p)
      (trimSuffix (goBase p) (filepathExt (goBase p))) (filepathExt (goBase p))
      1 (fs.length + 1)) = goDir p
    rw [hk, collisionCand]
    apply goDir_goJoin _ _ hp
    intro c hc
    simp only [String.data_append, List.mem_append] at hc
    rcases hc with ((hc | hc) | hc) | hc
    · exact trimSuffix_no_slash _ _ (goBase_no_slash p) c hc
    · have : c = '_' := by simpa using hc
      subst this
      decide
    · exact natRepr_no_slash k c hc
    · exact filepathExt_no_slash (goBase p) c hc
  · rfl

theorem categorizeFile_shape (o : Organizer) (p : String) :
    o.categorizeFile p ∈ o.Categories.map Prod.fst ∨ o.categorizeFile p = "mix" := by
  rw [Organizer.categorizeFile]
  cases h : o.Categories.find?
      (fun c => decide (goToLower (filepathExt p) ∈ c.2)) with
  | some c =>
    exact .inl (List.mem_map.mpr ⟨c, List.mem_of_find?_eq_some h, rfl⟩)
  | none => exact .inr rfl

theorem goJoin_categorize_mem_targets (o : Organizer) (p : String) :
    goJoin o.RootPath (o.categorizeFile p) ∈ o.targetPaths := by
  rw [Organizer.targetPaths]
  rcases categorizeFile_shape o p with h | h
  · obtain ⟨c, hc, he⟩ := List.mem_map.mp h
    exact List.mem_append.mpr (.inl (List.mem_map.mpr ⟨c, hc, by rw [he]⟩))
  · exact List.mem_append.mpr (.inr (by simp [h]))

/-- C10: every move `processFile` performs sends the file to a destination
whose parent directory is `Join(RootPath, C)` for the computed category `C`
— a configured category name or the fixed catch-all `"mix"` — and that
parent is a member of the run's target-path set, so a move never places a
file outside the category subdirectories of the root (collision suffixing
changes only the final name component, never the parent directory). -/
theorem processFile_dest_in_targets (o : Organizer) (rok : String → String → Bool)
    (fs : List String) (path entryName : String)
    (hn : ∀ c ∈ entryName.data, c ≠ '/') :
    ∀ s d, (o.processFile rok fs path entryName).move = some (s, d) →
      goDir d = goJoin o.RootPath (o.categorizeFile path) ∧
      goDir d ∈ o.targetPaths ∧
      (o.categorizeFile path ∈ o.Categories.map Prod.fst ∨
        o.categorizeFile path = "mix") := by
  intro s d h
  have hdir : goJoin o.RootPath (o.categorizeFile path) ≠ "" :=
    goJoin_ne_empty _ _
  have hdp : goDir (goJoin (goJoin o.RootPath (o.categorizeFile path)) entryName)
      = goJoin o.RootPath (o.categorizeFile path) :=
    goDir_goJoin _ _ hdir hn
  simp only [Organizer.processFile] at h
  split at h
  · simp at h
  · split at h
    · simp at h
    · next hdry =>
      split at h
      · simp only [Option.some.injEq, Prod.mk.injEq] at h
        have hd : d = resolveCollision fs
            (goJoin (goJoin o.RootPath (o.categorizeFile path)) entryName) := h.2.symm
        subst hd
        have hgd : goDir (resolveCollision fs
            (goJoin (goJoin o.RootPath (o.categorizeFile path)) entryName))
            = goJoin o.RootPath (o.categorizeFile path) := by
          rw [goDir_resolveCollision _ _ (by rw [hdp]; exact hdir), hdp]
        refine ⟨hgd, ?_, categorizeFile_shape o path⟩
        rw [hgd]
        exact goJoin_categorize_mem_targets o path
      · simp at h

/-- Witness for `processFile_dest_in_targets`: moving a root-level text
file lands it under the docs target directory, a member of the target-path
set. -/
theorem processFile_dest_in_targets_witness :
    goDir "/r/docs/x.txt" =
      goJoin "/r" ((⟨"/r", false, true, defaultCategories⟩ : Organizer).categorizeFile "/r/x.txt") ∧
    goDir "/r/docs/x.txt" ∈ (⟨"/r", false, true, defaultCategories⟩ : Organizer).targetPaths ∧
    ((⟨"/r", false, true, defaultCategories⟩ : Organizer).categorizeFile "/r/x.txt" ∈
        (⟨"/r", false, true, defaultCategories⟩ : Organizer).Categories.map Prod.fst ∨
      (⟨"/r", false, true, defaultCategories⟩ : Organizer).categorizeFile "/r/x.txt" = "mix") :=
  processFile_dest_in_targets (⟨"/r", false, true, defaultCategories⟩ : Organizer)
    (fun _ _ => true) [] "/r/x.txt" "x.txt" (by decide) "/r/x.txt" "/r/docs/x.txt" (by decide)

/-- C1 (code bug): with the configured categories of
`TestRun_CreatesDirectories`, a real (non-dry) run registers the catch-all
path `<root>/mix` in its target-path set but never creates that directory —
the creation loop covers only the configured categories, and the later
fixed statement only inserts the catch-all into `TargetPaths` — so after
the pre-walk phase the filesystem holds the two configured category
directories and not `<root>/mix`, contradicting the test (and the earlier
`src/unnamed/part_001` main, which created every entry of `targetDirs`,
"mix" included). -/
theorem Run_never_creates_catchall_dir :
    goJoin "/tmp/w" "mix" ∈
      (⟨"/tmp/w", false, true, [("documents", [".pdf"]), ("media", [".mp4"])]⟩ :
        Organizer).targetPaths ∧
    ((⟨"/tmp/w", false, true, [("documents", [".pdf"]), ("media", [".mp4"])]⟩ :
        Organizer).Run ⟨fun _ _ => true, none⟩ .nil ["/tmp/w"]).fs
      = ["/tmp/w/media", "/tmp/w/documents", "/tmp/w"] ∧
    goJoin "/tmp/w" "mix" ∉
      ((⟨"/tmp/w", false, true, [("documents", [".pdf"]), ("media", [".mp4"])]⟩ :
        Organizer).Run ⟨fun _ _ => true, none⟩ .nil ["/tmp/w"]).fs ∧
    ((⟨"/tmp/w", false, true, [("documents", [".pdf"]), ("media", [".mp4"])]⟩ :
        Organizer).Run ⟨fun _ _ => true, none⟩ .nil ["/tmp/w"]).result = .ok := by
  decide

/-- C6 (amended): when the config flag is left at its default and
`config.json` is absent, the program does not fail and falls back to the
built-in video/audio/docs categories with their fixed extension lists; when
the user names a configuration file *other than the default name* that is
absent, the decision is fatal — `main` takes it before calling `Run`, so
before any filesystem mutation. -/
theorem mainConfigDecision_spec :
    (∀ parsed, mainConfigDecision none false parsed = .useDefaults) ∧
    (∀ o : Organizer, (o.UseDefaultCategories).Categories =
      [("video", [".mp4", ".mkv", ".avi"]),
       ("audio", [".mp3", ".wav", ".flac"]),
       ("docs", [".pdf", ".docx", ".txt", ".md"])]) ∧
    (∀ p parsed, p ≠ "config.json" →
      mainConfigDecision (some p) false parsed = .fatal) := by
  refine ⟨fun parsed => rfl, fun o => rfl, ?_⟩
  intro p parsed hp
  simp [mainConfigDecision, effectiveConfigPath, hp]

/-- Witness for `mainConfigDecision_spec`: a missing explicitly named
non-default file is fatal, a missing default-named file falls back to the
defaults. -/
theorem mainConfigDecision_spec_witness :
    mainConfigDecision (some "myconf.json") false none = .fatal ∧
    mainConfigDecision none false none = .useDefaults :=
  ⟨mainConfigDecision_spec.2.2 "myconf.json" none (by decide),
   mainConfigDecision_spec.1 none⟩

/-- C6, counterexample to the claim as frozen: a user who explicitly passes
the default name (`-config config.json`) while no such file exists is not
stopped fatally — the source compares the flag's value against the literal
default name, so this run silently falls back to the built-in categories
instead of exiting. -/
theorem mainConfigDecision_explicit_default_cx :
    mainConfigDecision (some "config.json") false none = .useDefaults ∧
    mainConfigDecision (some "config.json") false none ≠ .fatal := by
  decide
